import Mathlib

/-!
# Verification of the beatmaplinker stream/reply core (`src/beatmapbot.py`)

Shallow embedding of the pure core of `beatmapbot.py`: Python strings are
`List Char`, fallible code returns `Except String`, and the external
collaborators (reddit client, osu! metadata API, configuration) are injected
as explicit parameters, following the spec's own design notes (§9).
-/

set_option maxHeartbeats 1000000

deriving instance DecidableEq for Except

namespace BeatmapBot

/-- Python strings are modelled as lists of characters. -/
abbrev Str := List Char

/-! ## Generic string helpers used by the embedded library functions -/

/-- Consume the literal `pat` from the front of `s`; `some rest` on success. -/
def dropLit : Str → Str → Option Str
  | [], s => some s
  | _ :: _, [] => none
  | p :: ps, c :: cs => if p = c then dropLit ps cs else none

/-- Is `c` a hexadecimal digit? -/
def isHexC (c : Char) : Bool :=
  c.isDigit || ('a' ≤ c && c ≤ 'f') || ('A' ≤ c && c ≤ 'F')

/-- Numeric value of a hexadecimal digit (0 for non-hex characters). -/
def hexVal (c : Char) : Nat :=
  if c.isDigit then c.toNat - 48
  else if 'a' ≤ c ∧ c ≤ 'f' then c.toNat - 87
  else if 'A' ≤ c ∧ c ≤ 'F' then c.toNat - 55
  else 0

/-- `urllib.parse.unquote_plus`: `+` becomes a space, `%hh` becomes the
character with that code point.  Simplification: a multi-byte UTF-8 percent
sequence decodes byte-by-byte instead of as one code point; no claim
exercises non-ASCII escapes.  A malformed escape is kept verbatim, as in
Python. -/
def unquote_plus : Str → Str
  | [] => []
  | '+' :: r => ' ' :: unquote_plus r
  | '%' :: a :: b :: r =>
      if isHexC a && isHexC b
      then Char.ofNat (16 * hexVal a + hexVal b) :: unquote_plus r
      else '%' :: unquote_plus (a :: b :: r)
  | c :: r => c :: unquote_plus r

/-- `html.unescape` restricted to the entities that can occur in the
reddit-rendered markup this bot consumes (`&amp;` `&lt;` `&gt;` `&quot;`
`&#39;`).  The full named-entity table of the Python standard library is
external data; unmatched text passes through unchanged, as in Python. -/
def unescape : Str → Str
  | [] => []
  | '&' :: 'a' :: 'm' :: 'p' :: ';' :: r => '&' :: unescape r
  | '&' :: 'l' :: 't' :: ';' :: r => '<' :: unescape r
  | '&' :: 'g' :: 't' :: ';' :: r => '>' :: unescape r
  | '&' :: 'q' :: 'u' :: 'o' :: 't' :: ';' :: r => '"' :: unescape r
  | '&' :: '#' :: '3' :: '9' :: ';' :: r => '\'' :: unescape r
  | c :: r => c :: unescape r

/-- Split a string at every occurrence of the character `c`
(`str.split(c)` in Python: `""` splits to `[""]`). -/
def splitOnC (c : Char) : Str → List Str
  | [] => [[]]
  | x :: xs =>
      let r := splitOnC c xs
      if x = c then [] :: r
      else
        match r with
        | [] => [[x]]
        | h :: t => (x :: h) :: t

/-- Split at the first `'='` (`nv.split('=', 1)` with maxsplit 1);
`none` when there is no `'='`. -/
def splitFirstEq : Str → Option (Str × Str)
  | [] => none
  | c :: r =>
      if c = '=' then some ([], r)
      else (splitFirstEq r).map (fun p => (c :: p.1, p.2))

/-! ## `urllib.parse.urlparse` / `parse_qs` (the slices the bot uses)

The bot reads only `parsed.path` and `parsed.query`.  The model follows
CPython's `urlsplit` for well-formed URLs: strip the fragment at the first
`'#'`, the query at the first `'?'`, the scheme at the first `':'` when
everything before it is a scheme character, and the netloc between `"//"`
and the next `'/'`. -/

structure UrlParts where
  path : Str
  query : Str
deriving DecidableEq, Repr

/-- Characters allowed in a URL scheme (`scheme_chars` in CPython). -/
def isSchemeChar (c : Char) : Bool :=
  c.isAlpha || c.isDigit || c = '+' || c = '-' || c = '.'

/-- Strip `scheme:` from the front when the text before the first `':'` is a
non-empty run of scheme characters, as CPython's `urlsplit` does. -/
def stripScheme (s : Str) : Str :=
  if (s.takeWhile (fun c => c ≠ ':')).length = 0 then s
  else if (s.takeWhile (fun c => c ≠ ':')).length = s.length then s
  else if (s.takeWhile (fun c => c ≠ ':')).all isSchemeChar then
    (s.dropWhile (fun c => c ≠ ':')).drop 1
  else s

/-- Split off the `//netloc` part, keeping the path (query and fragment have
already been removed by the caller). -/
def splitNetloc (s : Str) : Str :=
  if ("//".data).isPrefixOf s then (s.drop 2).dropWhile (fun c => c ≠ '/')
  else s

/-- `urllib.parse.urlparse`, restricted to the `path`/`query` fields the bot
reads: the fragment starts at the first `'#'`, the query at the first `'?'`
of what remains. -/
def urlparse (url : Str) : UrlParts :=
  ⟨splitNetloc (stripScheme
      ((url.takeWhile (fun c => c ≠ '#')).takeWhile (fun c => c ≠ '?'))),
   ((url.takeWhile (fun c => c ≠ '#')).dropWhile (fun c => c ≠ '?')).drop 1⟩

/-- `urllib.parse.parse_qsl` with the defaults: pairs are split on `'&'`,
pairs without `'='` or with a blank value are skipped
(`keep_blank_values=False`), names and values are unquoted. -/
def parse_qsl (q : Str) : List (Str × Str) :=
  (splitOnC '&' q).filterMap
    (fun nv =>
      if nv = [] then none
      else
        match splitFirstEq nv with
        | none => none
        | some (n, v) =>
            if v = [] then none
            else some (unquote_plus n, unquote_plus v))

/-- First value listed for key `k`: `parse_qs(q)[k][0]`; `none` models
`k not in parse_qs(q)`. -/
def qsFirst (q : List (Str × Str)) (k : Str) : Option Str :=
  match q with
  | [] => none
  | (k', v) :: rest => if k' = k then some v else qsFirst rest k

/-! ## `get_map_params` (lines 49-75)

The tail of the function (lines 71-75) is `finishParams`: the `"&" in
map_id` test raises `TypeError` when `map_id` is still `None`, i.e. when no
recognized path shape matched — this is the Python behaviour, faithfully
kept (`Except.error` models the raised exception). -/

/-- Lines 71-72 of `get_map_params`: truncate `map_id` at its first `'&'`
when it has one. -/
def ampTrunc (mid : Str) : Str :=
  if '&' ∈ mid then mid.takeWhile (fun c => c ≠ '&') else mid

/-- Lines 71-75 of `get_map_params`: `&`-truncation, then the
`map_type and map_id.isdigit()` test.  `map_id = None` hits
`if "&" in map_id` and raises `TypeError`; `Except.ok none` models the
`return False` path. -/
def finishParams : Option Str → Option Str → Except String (Option (Str × Str))
  | _, none => .error "TypeError: argument of type NoneType is not iterable"
  | mt, some mid =>
      match mt with
      | some t =>
          if ampTrunc mid ≠ [] ∧ (ampTrunc mid).all Char.isDigit
          then .ok (some (t, ampTrunc mid)) else .ok none
      | none => .ok none

/-- The branch selection of `get_map_params` (lines 60-70): `/b/`, `/s/`,
then `/p/beatmap` with the `b` query parameter checked before `s`. -/
def gmpSelect (parsed : UrlParts) : Except String (Option (Str × Str)) :=
  if ("/b/".data).isPrefixOf parsed.path then
    finishParams (some "b".data) (some (parsed.path.drop 3))
  else if ("/s/".data).isPrefixOf parsed.path then
    finishParams (some "s".data) (some (parsed.path.drop 3))
  else if parsed.path = "/p/beatmap".data then
    match qsFirst (parse_qsl parsed.query) "b".data with
    | some v => finishParams (some "b".data) (some v)
    | none =>
        match qsFirst (parse_qsl parsed.query) "s".data with
        | some v => finishParams (some "s".data) (some v)
        | none => finishParams none none
  else finishParams none none

/-- `get_map_params` (lines 49-75): `.ok (some (ty, id))` is a returned
tuple, `.ok none` is `return False`, `.error` a raised exception. -/
def get_map_params (url : Str) : Except String (Option (Str × Str)) :=
  gmpSelect (urlparse url)

/-! ## `URL_REGEX.findall` (line 27)

`re.compile(r'<a href="(?P<url>https?://osu\.ppy\.sh/[^"]+)">(?P=url)</a>')`.
For this pattern the regex engine is deterministic: the capture must end
right before the next `'"'`, so a greedy scan needs no backtracking.
`findallGo` runs on explicit fuel (one unit per character) so that it is
structurally recursive; each step consumes at least one character, so
`length + 1` fuel always suffices. -/

def anchorPre : Str := "<a href=\"".data
def httpsHost : Str := "https://osu.ppy.sh/".data
def httpHost : Str := "http://osu.ppy.sh/".data

/-- Match `https?://osu\.ppy\.sh/` at the front, greedy `s?` first. -/
def schemeSplit (r : Str) : Option (Str × Str) :=
  match dropLit httpsHost r with
  | some r2 => some (httpsHost, r2)
  | none =>
      match dropLit httpHost r with
      | some r2 => some (httpHost, r2)
      | none => none

/-- Try to match the whole anchor pattern at the current position, returning
the captured `url` group (the scheme/host prefix plus the greedy non-quote
run, provided the closing `">url</a>` follows). -/
def tryMatch (s : Str) : Option Str :=
  match dropLit anchorPre s with
  | none => none
  | some r1 =>
      match schemeSplit r1 with
      | none => none
      | some (pre, r2) =>
          if r2.takeWhile (fun c => c ≠ '"') = [] then none
          else
            match dropLit ('"' :: '>' ::
                ((pre ++ r2.takeWhile (fun c => c ≠ '"')) ++ "</a>".data))
                (r2.dropWhile (fun c => c ≠ '"')) with
            | none => none
            | some _ => some (pre ++ r2.takeWhile (fun c => c ≠ '"'))

/-- The text matched for a captured group `u` (match length `2*|u| + 15`). -/
def anchorOf (u : Str) : Str := anchorPre ++ u ++ '"' :: '>' :: (u ++ "</a>".data)

/-- Fuelled scan: at each position try to match, emit the group and jump past
the match, else advance one character (non-overlapping, leftmost-first, as
`re.findall`). -/
def findallGo : Nat → Str → List Str
  | 0, _ => []
  | _ + 1, [] => []
  | fuel + 1, c :: rest =>
      match tryMatch (c :: rest) with
      | some url => url :: findallGo fuel ((c :: rest).drop (2 * url.length + 15))
      | none => findallGo fuel rest

/-- `URL_REGEX.findall(s)`. -/
def URL_REGEX_findall (s : Str) : List Str := findallGo (s.length + 1) s

/-! ## Extraction (lines 151-171) -/

/-- `get_maps_from_html` (lines 151-156): each matched URL is HTML-unescaped
and parsed; `filter(None, ...)` drops the `False` results; an exception from
`get_map_params` propagates. -/
def get_maps_from_html (h : Str) : Except String (List (Str × Str)) :=
  ((URL_REGEX_findall h).mapM (fun z => get_map_params (unescape z))).map
    (fun l => l.filterMap id)

/-- An item of a content stream: tagged variant for `praw.objects.Comment` /
`praw.objects.Submission` (spec §3 and §9), carrying only the attributes the
core reads. -/
inductive Thing where
  | comment (id author body_html : Str)
  | submission (id author : Str) (selftext_html : Option Str)
deriving DecidableEq, Repr

def Thing.id : Thing → Str
  | .comment i _ _ => i
  | .submission i _ _ => i

def Thing.author : Thing → Str
  | .comment _ a _ => a
  | .submission _ a _ => a

/-- `get_maps_from_thing` (lines 159-171): the body is unescaped once more
before extraction; a falsy `selftext_html` (absent or empty) yields `[]`. -/
def get_maps_from_thing : Thing → Except String (List (Str × Str))
  | .comment _ _ b => get_maps_from_html (unescape b)
  | .submission _ _ none => .ok []
  | .submission _ _ (some b) =>
      if b = [] then .ok [] else get_maps_from_html (unescape b)

/-! ## `remove_dups` and `format_comment` (lines 113-148)

`format_map` performs template formatting over data fetched from the osu!
API; following spec §9 it is injected as an explicit capability
`fmt : Str → Str → Str` (the metadata block rendered for a `(map_type,
map_id)` pair).  The configured separator is passed already unescaped (the
source's `.replace("\\n", "\n")` belongs to configuration loading);
`none` models a config without a `sep` key. -/

/-- The generator `remove_dups` (lines 113-122): `rdGo seen l` yields the
elements of `l` not yet in `seen`, first occurrences only. -/
def rdGo {α : Type} [DecidableEq α] : List α → List α → List α
  | _, [] => []
  | seen, x :: xs => if x ∈ seen then rdGo seen xs else x :: rdGo (x :: seen) xs

/-- `remove_dups(iterable)` (lines 113-122). -/
def remove_dups {α : Type} [DecidableEq α] (l : List α) : List α := rdGo [] l

/-- `"\n\n"`, the `line_break` of `format_comment`. -/
def line_break : Str := "\n\n".data

/-- The `for beatmap in remove_dups(maps)` loop of `format_comment`
(lines 137-144): stop (`break`) when the coded length check would push the
comment past 10000 characters, otherwise append the block, preceded by the
separator when the body is non-empty. -/
def fcBody (fmt : Str → Str → Str) (base_len : Nat) (sep : Str) :
    List (Str × Str) → Str → Str
  | [], body => body
  | m :: rest, body =>
      let next_map := fmt m.1 m.2
      if base_len + body.length + sep.length + next_map.length > 10000 then body
      else fcBody fmt base_len sep rest
        (if body = [] then next_map else body ++ sep ++ next_map)

/-- `format_comment(maps)` (lines 125-148): `base_len` is the
header/footer/line-break overhead, the separator defaults to the line
break, and the body is folded over the deduplicated reference list. -/
def format_comment (fmt : Str → Str → Str) (header footer : Str)
    (sepOpt : Option Str) (maps : List (Str × Str)) : Str :=
  header ++ line_break
    ++ fcBody fmt (header.length + footer.length + line_break.length * 2)
        (sepOpt.getD line_break) (remove_dups maps) []
    ++ line_break ++ footer

/-! ## The recency set

Modelled from the spec: the `limitedset` module (class `LimitedSet`,
line 10) is not under `src/`; it is modelled from spec §3/§4.1 — a bounded
insertion-ordered membership set: adding a present id is a no-op, and when
the capacity would be exceeded the oldest-inserted id is evicted.  `items`
keeps the newest id first. -/

structure LimitedSet where
  limit : Nat
  items : List Str
deriving DecidableEq, Repr

/-- Membership test (`thing.id in seen`). -/
def LimitedSet.mem (s : LimitedSet) (x : Str) : Bool := decide (x ∈ s.items)

/-- `seen.add(thing.id)`: no-op when present, else insert newest-first and
drop the oldest beyond the capacity. -/
def LimitedSet.add (s : LimitedSet) (x : Str) : LimitedSet :=
  if x ∈ s.items then s else ⟨s.limit, (x :: s.items).take s.limit⟩

/-! ## `reply` and `thing_loop` (lines 189-221)

External collaborators are injected through `Env` (spec §6/§9):
`hasReplied` is the result of the `has_replied` platform re-query
(lines 174-186), `post` is `thing.reply` / `thing.add_comment` (which can
fail with a platform error), `fmt` with the template strings drives
`format_comment`.  The observable actions of one walk are collected as
`Event`s; `WalkStatus` records how the walk over one stream batch ended —
`completed` (batch exhausted), `stoppedSeen` (`break` at a seen id),
`stoppedReplied` (`break` after `has_replied`), or `aborted e` (an
exception propagated out; ids already added to the recency set are kept,
spec §5). -/

inductive Event where
  | newNoMaps (id : Str)
  | alreadyReplied (id : Str)
  | selfSkip (id : Str)
  | posted (id : Str) (text : Str)
deriving DecidableEq, Repr

inductive WalkStatus where
  | completed
  | stoppedSeen
  | stoppedReplied
  | aborted (e : String)
deriving DecidableEq, Repr

structure Env where
  botname : Str
  hasReplied : Thing → Bool
  fmt : Str → Str → Str
  header : Str
  footer : Str
  sep : Option Str
  post : Thing → Str → Except String Unit

/-- `reply(thing, text)` (lines 189-204): an item authored by the bot's own
account is skipped before any posting; otherwise the platform post runs and
its failure propagates. -/
def reply (botname : Str) (post : Thing → Str → Except String Unit)
    (t : Thing) (text : Str) : Except String (List Event) :=
  if t.author = botname then .ok [.selfSkip t.id]
  else
    match post t text with
    | .error e => .error e
    | .ok _ => .ok [.posted t.id text]

/-- `thing_loop(thing_type, content, seen, r)` (lines 207-221), walking one
newest-first stream batch.  Returns the final recency set, the events in
order, and how the walk ended. -/
def thing_loop (env : Env) : List Thing → LimitedSet →
    LimitedSet × List Event × WalkStatus
  | [], seen => (seen, [], .completed)
  | t :: rest, seen =>
      if seen.mem t.id then (seen, [], .stoppedSeen)
      else
        let seen1 := seen.add t.id
        match get_maps_from_thing t with
        | .error e => (seen1, [], .aborted e)
        | .ok found =>
            if found = [] then
              let r := thing_loop env rest seen1
              (r.1, .newNoMaps t.id :: r.2.1, r.2.2)
            else
              if env.hasReplied t then (seen1, [.alreadyReplied t.id], .stoppedReplied)
              else
                match reply env.botname env.post t
                    (format_comment env.fmt env.header env.footer env.sep found) with
                | .error e => (seen1, [], .aborted e)
                | .ok evs =>
                    let r := thing_loop env rest seen1
                    (r.1, evs ++ r.2.1, r.2.2)

/-! ## Startup (lines 14-17)

`exit()` raises `SystemExit(None)`, which terminates the interpreter with
exit status 0. -/

/-- Exit status produced by Python's `exit(code)`: `exit()` gives 0. -/
def pyExit (code : Option Nat) : Nat := code.getD 0

structure StartupResult where
  printed : List String
  exitCode : Option Nat
  reachedMainLoop : Bool
deriving DecidableEq, Repr

/-- The module-level config check (lines 14-17): when `config.ini` is
absent, two lines go to standard output and `exit()` runs before the reddit
login and the stream loop (lines 224-247) are ever reached. -/
def startup (configExists : Bool) : StartupResult :=
  if configExists then ⟨[], none, true⟩
  else
    ⟨["No config file found.",
      "Copy config_example.ini to config.ini and modify to your needs."],
     some (pyExit none), false⟩

/-! # Theorems -/

/-- Claim C1.  The claim says every URL of unrecognized shape is silently
dropped by `get_map_params` with no error.  In the code, a URL whose path
matches none of the three recognized branches (or a `/p/beatmap` URL with
neither a `b` nor an `s` parameter) leaves `map_id = None`, and line 71
(`if "&" in map_id`) then raises `TypeError` — contradicting the function's
own docstring "Returns a tuple of (map_type, map_id) or False if URL is
invalid".  This theorem evaluates the code at such inputs: the unrecognized
shape raises (and the error propagates through `get_maps_from_html`), while
a recognized shape with a non-numeric id is indeed silently dropped. -/
theorem c1_unmatched_url_raises :
    get_map_params "https://osu.ppy.sh/forum/3".data
      = .error "TypeError: argument of type NoneType is not iterable"
    ∧ get_maps_from_html
        "<a href=\"https://osu.ppy.sh/forum/3\">https://osu.ppy.sh/forum/3</a>".data
      = .error "TypeError: argument of type NoneType is not iterable"
    ∧ get_map_params "https://osu.ppy.sh/p/beatmap".data
      = .error "TypeError: argument of type NoneType is not iterable"
    ∧ get_map_params "https://osu.ppy.sh/b/xyz".data = .ok none := by
  refine ⟨?_, ?_, ?_, ?_⟩ <;> decide

/-- Claim C9, counterexample.  The claim says a missing configuration file
makes the process exit with a non-zero status; the code calls `exit()` with
no argument (line 17), i.e. `SystemExit(None)`, which is exit status 0. -/
theorem c9_exit_status_zero_counterexample :
    (startup false).exitCode = some 0 := rfl

/-- Claim C9, amended: if the required configuration file is absent at
startup, the process prints a human-readable message to standard output and
exits immediately, before touching any stream, with exit status 0 (Python's
`exit()` with no argument). -/
theorem c9_missing_config_amended :
    startup false =
      ⟨["No config file found.",
        "Copy config_example.ini to config.ini and modify to your needs."],
       some 0, false⟩
    ∧ startup true = ⟨[], none, true⟩ :=
  ⟨rfl, rfl⟩

/-- Claim C4.  An item authored by the bot's own configured account is never
posted to and raises no error: `reply` returns successfully with only the
self-skip trace, whatever the posting collaborator would have done and
whatever text was composed. -/
theorem c4_self_reply_guard (botname : Str) (post : Thing → Str → Except String Unit)
    (t : Thing) (text : Str) (h : t.author = botname) :
    reply botname post t text = .ok [Event.selfSkip t.id] := by
  simp [reply, h]

/-- A self-authored item used to witness claim C4. -/
def selfThing : Thing := .comment "t9".data "bot".data "x".data

/-- Claim C4, witness: even when the platform post operation would fail,
a self-authored item produces no post and no error. -/
theorem c4_self_reply_guard_witness :
    selfThing.author = "bot".data
    ∧ reply "bot".data (fun _ _ => .error "PlatformError") selfThing "hi".data
      = .ok [Event.selfSkip "t9".data] :=
  ⟨rfl, c4_self_reply_guard "bot".data (fun _ _ => .error "PlatformError")
    selfThing "hi".data rfl⟩

/-! Helper lemmas about `rdGo`, the generator inside `remove_dups`. -/

theorem rdGo_congr {α : Type} [DecidableEq α] :
    ∀ (l s s' : List α), (∀ y, y ∈ s ↔ y ∈ s') → rdGo s l = rdGo s' l := by
  intro l
  induction l with
  | nil => intro s s' _; rfl
  | cons x xs ih =>
      intro s s' h
      simp only [rdGo]
      by_cases hx : x ∈ s
      · rw [if_pos hx, if_pos ((h x).mp hx)]
        exact ih s s' h
      · rw [if_neg hx, if_neg (fun c => hx ((h x).mpr c))]
        exact congrArg (x :: ·) (ih (x :: s) (x :: s')
          (fun y => by rw [List.mem_cons, List.mem_cons, h y]))

theorem rdGo_filter {α : Type} [DecidableEq α] :
    ∀ (l s : List α) (a : α),
      rdGo (a :: s) l = rdGo s (l.filter (fun y => y ≠ a)) := by
  intro l
  induction l with
  | nil => intro s a; rfl
  | cons x xs ih =>
      intro s a
      rw [List.filter_cons]
      by_cases hxa : x = a
      · subst hxa
        rw [show rdGo (x :: s) (x :: xs) = rdGo (x :: s) xs from by
          simp [rdGo]]
        rw [if_neg (by simp : ¬((fun y => decide ¬y = x) x = true))]
        exact ih s x
      · have hdec : (decide ¬x = a) = true := by simp [hxa]
        rw [if_pos hdec]
        by_cases hxs : x ∈ s
        · rw [show rdGo (a :: s) (x :: xs) = rdGo (a :: s) xs from by
            simp [rdGo, List.mem_cons, hxs]]
          rw [show rdGo s (x :: List.filter (fun y => decide ¬y = a) xs)
              = rdGo s (List.filter (fun y => decide ¬y = a) xs) from by
            simp [rdGo, hxs]]
          exact ih s a
        · have hxas : x ∉ a :: s := by
            simp [List.mem_cons, hxa, hxs]
          rw [show rdGo (a :: s) (x :: xs)
              = x :: rdGo (x :: a :: s) xs from by simp [rdGo, hxas]]
          rw [show rdGo s (x :: List.filter (fun y => decide ¬y = a) xs)
              = x :: rdGo (x :: s) (List.filter (fun y => decide ¬y = a) xs) from by
            simp [rdGo, hxs]]
          refine congrArg (x :: ·) ?_
          rw [rdGo_congr xs (x :: a :: s) (a :: x :: s)
            (fun y => by simp [List.mem_cons]; tauto)]
          exact ih (x :: s) a

theorem rdGo_nodup {α : Type} [DecidableEq α] :
    ∀ (l s : List α), (rdGo s l).Nodup ∧ ∀ x ∈ rdGo s l, x ∉ s := by
  intro l
  induction l with
  | nil => intro s; exact ⟨List.nodup_nil, by simp [rdGo]⟩
  | cons x xs ih =>
      intro s
      by_cases hx : x ∈ s
      · simp only [rdGo, if_pos hx]; exact ih s
      · simp only [rdGo, if_neg hx]
        obtain ⟨hnd, hns⟩ := ih (x :: s)
        refine ⟨List.nodup_cons.mpr
          ⟨fun hmem => (hns x hmem) (List.mem_cons_self x s), hnd⟩, ?_⟩
        intro y hy
        rcases List.mem_cons.mp hy with h1 | h2
        · subst h1; exact hx
        · intro hys; exact (hns y h2) (List.mem_cons_of_mem x hys)

/-- Claim C6.  `remove_dups` deduplicates stably: the output has no
duplicates and satisfies the first-occurrence recursion (keeping the head
and erasing its later copies before recursing), and on the claim's concrete
list `[(item,1),(item,2),(item,1)]` the composed body carries exactly two
metadata blocks, item 1 first, then item 2. -/
theorem c6_stable_dedup :
    (∀ l : List (Str × Str), (remove_dups l).Nodup)
    ∧ (∀ (x : Str × Str) (l : List (Str × Str)),
        remove_dups (x :: l) = x :: remove_dups (l.filter (fun y => y ≠ x)))
    ∧ format_comment (fun _ i => i) "H".data "F".data (some "S".data)
        [("b".data, "1".data), ("b".data, "2".data), ("b".data, "1".data)]
      = "H\n\n1S2\n\nF".data := by
  refine ⟨fun l => (rdGo_nodup l []).1, fun x l => ?_, by decide⟩
  have h1 : rdGo ([] : List (Str × Str)) (x :: l) = x :: rdGo [x] l := by
    simp [rdGo]
  rw [remove_dups, h1, show ([x] : List (Str × Str)) = x :: [] from rfl,
    rdGo_filter l [] x]
  rfl

/-! Soundness of the embedded `URL_REGEX` matcher. -/

theorem dropLit_sound : ∀ (p s r : Str), dropLit p s = some r → s = p ++ r := by
  intro p
  induction p with
  | nil =>
      intro s r h
      simp only [dropLit, Option.some.injEq] at h
      simp [h]
  | cons c cs ih =>
      intro s r h
      cases s with
      | nil => simp [dropLit] at h
      | cons d ds =>
          simp only [dropLit] at h
          split at h
          · next hcd =>
              subst hcd
              rw [List.cons_append]
              exact congrArg (c :: ·) (ih ds r h)
          · cases h

theorem schemeSplit_sound (r pre r2 : Str) (h : schemeSplit r = some (pre, r2)) :
    r = pre ++ r2 ∧ (pre = httpsHost ∨ pre = httpHost) := by
  unfold schemeSplit at h
  cases h1 : dropLit httpsHost r with
  | some x =>
      rw [h1] at h
      injection h with h
      injection h with hpre hr2
      subst hpre; subst hr2
      exact ⟨dropLit_sound _ _ _ h1, Or.inl rfl⟩
  | none =>
      rw [h1] at h
      cases h2 : dropLit httpHost r with
      | some x =>
          rw [h2] at h
          injection h with h
          injection h with hpre hr2
          subst hpre; subst hr2
          exact ⟨dropLit_sound _ _ _ h2, Or.inr rfl⟩
      | none => rw [h2] at h; cases h

theorem tryMatch_sound (s u : Str) (h : tryMatch s = some u) :
    ((∃ t, u = httpsHost ++ t) ∨ (∃ t, u = httpHost ++ t))
    ∧ ∃ rest, s = anchorOf u ++ rest := by
  unfold tryMatch at h
  split at h
  · cases h
  · next r1 h1 =>
      split at h
      · cases h
      · next pre r2 h2 =>
          split at h
          · cases h
          · next hrun =>
              split at h
              · cases h
              · next rest h3 =>
                  injection h with hu
                  obtain ⟨hr1, hpre⟩ := schemeSplit_sound r1 pre r2 h2
                  have hsplit : r2.takeWhile (fun c => c ≠ '"')
                      ++ r2.dropWhile (fun c => c ≠ '"') = r2 :=
                    List.takeWhile_append_dropWhile _ _
                  have hrest := dropLit_sound _ _ _ h3
                  constructor
                  · rcases hpre with hh | hh <;> [left; right] <;>
                      exact ⟨r2.takeWhile (fun c => c ≠ '"'), by rw [← hu, hh]⟩
                  · refine ⟨rest, ?_⟩
                    rw [dropLit_sound _ _ _ h1, hr1, ← hsplit, hrest, ← hu,
                      anchorOf]
                    simp [List.append_assoc]

theorem findallGo_sound : ∀ (fuel : Nat) (s u : Str), u ∈ findallGo fuel s →
    ((∃ t, u = httpsHost ++ t) ∨ (∃ t, u = httpHost ++ t))
    ∧ ∃ pre post, s = pre ++ anchorOf u ++ post := by
  intro fuel
  induction fuel with
  | zero => intro s u h; simp [findallGo] at h
  | succ f ih =>
      intro s u h
      cases s with
      | nil => simp [findallGo] at h
      | cons c rest =>
          simp only [findallGo] at h
          cases hm : tryMatch (c :: rest) with
          | some url =>
              rw [hm] at h
              rcases List.mem_cons.mp h with h1 | h2
              · subst h1
                obtain ⟨hscheme, rest', hs⟩ := tryMatch_sound _ _ hm
                exact ⟨hscheme, [], rest', by simpa using hs⟩
              · obtain ⟨hscheme, pre, post, hsub⟩ := ih _ _ h2
                refine ⟨hscheme, (c :: rest).take (2 * url.length + 15) ++ pre,
                  post, ?_⟩
                conv_lhs => rw [← List.take_append_drop (2 * url.length + 15)
                  (c :: rest)]
                rw [hsub]
                simp [List.append_assoc]
          | none =>
              rw [hm] at h
              obtain ⟨hscheme, pre, post, hsub⟩ := ih _ _ h
              exact ⟨hscheme, c :: pre, post, by simp [hsub]⟩

/-- Claim C8, counterexample.  The claim says only the `https` scheme is
matched, but `URL_REGEX` is `https?://osu\.ppy\.sh/...`: an `http://` anchor
on the trusted host does yield a reference. -/
theorem c8_http_scheme_counterexample :
    get_maps_from_html
      "<a href=\"http://osu.ppy.sh/b/123\">http://osu.ppy.sh/b/123</a>".data
      = .ok [("b".data, "123".data)] := by decide

/-- Claim C8, amended: every URL the extractor matches uses the `http` or
`https` scheme on the fixed trusted host `osu.ppy.sh`, and it appears in the
input as an anchor whose text equals its href exactly (`anchorOf u` is
`<a href="u">u</a>`); anchors on any other host or scheme yield nothing. -/
theorem c8_trusted_host_amended (h u : Str) (hu : u ∈ URL_REGEX_findall h) :
    ((∃ t, u = httpsHost ++ t) ∨ (∃ t, u = httpHost ++ t))
    ∧ ∃ pre post, h = pre ++ anchorOf u ++ post :=
  findallGo_sound (h.length + 1) h u hu

/-- Concrete page used to witness claim C8's amended theorem. -/
def c8Html : Str :=
  "<a href=\"https://osu.ppy.sh/b/77\">https://osu.ppy.sh/b/77</a>".data

/-- Concrete matched URL used to witness claim C8's amended theorem. -/
def c8Url : Str := "https://osu.ppy.sh/b/77".data

/-- Claim C8, witness for the amended theorem. -/
theorem c8_trusted_host_amended_witness :
    c8Url ∈ URL_REGEX_findall c8Html
    ∧ (((∃ t, c8Url = httpsHost ++ t) ∨ (∃ t, c8Url = httpHost ++ t))
       ∧ ∃ pre post, c8Html = pre ++ anchorOf c8Url ++ post) :=
  ⟨by decide, c8_trusted_host_amended c8Html c8Url (by decide)⟩

/-! Helper lemmas for reasoning about `urlparse` on well-formed osu! URLs. -/

theorem twAppend (p : Char → Bool) :
    ∀ (xs ys : Str), (∀ a ∈ xs, p a = true) →
      (xs ++ ys).takeWhile p = xs ++ ys.takeWhile p := by
  intro xs
  induction xs with
  | nil => intro ys _; rfl
  | cons c cs ih =>
      intro ys h
      rw [List.cons_append, List.takeWhile_cons,
        if_pos (h c (List.mem_cons_self c cs)),
        ih ys (fun a ha => h a (List.mem_cons_of_mem c ha)), List.cons_append]

theorem dwAppend (p : Char → Bool) :
    ∀ (xs ys : Str), (∀ a ∈ xs, p a = true) →
      (xs ++ ys).dropWhile p = ys.dropWhile p := by
  intro xs
  induction xs with
  | nil => intro ys _; rfl
  | cons c cs ih =>
      intro ys h
      rw [List.cons_append, List.dropWhile_cons,
        if_pos (h c (List.mem_cons_self c cs)),
        ih ys (fun a ha => h a (List.mem_cons_of_mem c ha))]

/-- A digit character differs from any non-digit character. -/
theorem digit_decide_ne (c x : Char) (hc : c.isDigit = true)
    (hx : x.isDigit = false) : (decide (c ≠ x)) = true :=
  decide_eq_true (fun h => by rw [h, hx] at hc; cases hc)

theorem isPrefixOf_append (p l : Str) : p.isPrefixOf (p ++ l) = true := by
  induction p with
  | nil => simp [List.isPrefixOf]
  | cons c cs ih => simp [List.isPrefixOf, ih]

theorem stripScheme_https (r : Str) :
    stripScheme (httpsHost ++ r) = "//osu.ppy.sh/".data ++ r := by
  have hdecomp : httpsHost ++ r
      = "https".data ++ ':' :: ("//osu.ppy.sh/".data ++ r) := rfl
  have e1 : (httpsHost ++ r).takeWhile (fun c => c ≠ ':') = "https".data := by
    rw [hdecomp, twAppend _ _ _ (by decide), List.takeWhile_cons,
      if_neg (by decide)]
    simp
  have e2 : (httpsHost ++ r).dropWhile (fun c => c ≠ ':')
      = ':' :: ("//osu.ppy.sh/".data ++ r) := by
    rw [hdecomp, dwAppend _ _ _ (by decide), List.dropWhile_cons,
      if_neg (by decide)]
  rw [stripScheme, e1, e2]
  rw [if_neg (by decide), if_neg (by simp [List.length_append, httpsHost]),
    if_pos (by decide)]
  rfl

theorem splitNetloc_osu (r : Str) :
    splitNetloc ("//osu.ppy.sh/".data ++ r) = '/' :: r := by
  rw [splitNetloc, if_pos (by simp [List.isPrefixOf])]
  have : ("//osu.ppy.sh/".data ++ r).drop 2 = "osu.ppy.sh".data ++ '/' :: r := rfl
  rw [this, dwAppend _ _ _ (by decide), List.dropWhile_cons, if_neg (by decide)]

/-- `urlparse` on a URL of the trusted host: the path is `'/'` followed by
what remains of `rest` before the fragment and query markers, and the query
is what follows the first `'?'` before the fragment. -/
theorem urlparse_osu (rest : Str) :
    urlparse (httpsHost ++ rest) =
      ⟨'/' :: (rest.takeWhile (fun c => c ≠ '#')).takeWhile (fun c => c ≠ '?'),
       ((rest.takeWhile (fun c => c ≠ '#')).dropWhile (fun c => c ≠ '?')).drop 1⟩ := by
  rw [urlparse, twAppend _ _ _ (by decide), twAppend _ _ _ (by decide),
    dwAppend _ _ _ (by decide), stripScheme_https, splitNetloc_osu]

/-- `&`-truncation on an all-digit id followed by `'&'` and arbitrary text
keeps exactly the digits. -/
theorem ampTrunc_digits (d t2 : Str) (hdig : ∀ c ∈ d, c.isDigit = true) :
    ampTrunc (d ++ '&' :: t2) = d := by
  have hmem : '&' ∈ d ++ '&' :: t2 :=
    List.mem_append.mpr (Or.inr (List.mem_cons_self _ _))
  rw [ampTrunc, if_pos hmem,
    twAppend _ _ _ (fun a ha => digit_decide_ne a '&' (hdig a ha) (by decide)),
    List.takeWhile_cons, if_neg (by decide), List.append_nil]

theorem finishParams_amp (ty d t2 : Str) (hd : d ≠ [])
    (hdig : ∀ c ∈ d, c.isDigit = true) :
    finishParams (some ty) (some (d ++ '&' :: t2)) = .ok (some (ty, d)) := by
  simp only [finishParams, ampTrunc_digits d t2 hdig]
  rw [if_pos ⟨hd, List.all_eq_true.mpr (fun c hc => hdig c hc)⟩]

/-- Claim C10.  A URL whose path is `/b/` or `/s/` followed by digits, an
ampersand and arbitrary trailing text is accepted: the id is truncated at
the first `'&'` and the reference carries the digits before it. -/
theorem c10_ampersand_truncation (d t : Str) (hd : d ≠ [])
    (hdig : ∀ c ∈ d, c.isDigit = true) :
    get_map_params ("https://osu.ppy.sh/b/".data ++ (d ++ '&' :: t))
      = .ok (some ("b".data, d))
    ∧ get_map_params ("https://osu.ppy.sh/s/".data ++ (d ++ '&' :: t))
      = .ok (some ("s".data, d)) := by
  have hno := fun (x : Char) (hx : x.isDigit = false) (a : Char) (ha : a ∈ d) =>
    digit_decide_ne a x (hdig a ha) hx
  constructor
  · have hb : "https://osu.ppy.sh/b/".data ++ (d ++ '&' :: t)
        = httpsHost ++ ("b/".data ++ (d ++ '&' :: t)) := rfl
    rw [get_map_params, hb, urlparse_osu]
    rw [twAppend _ _ _ (by decide), twAppend _ _ _ (hno '#' (by decide)),
      List.takeWhile_cons, if_pos (by decide)]
    rw [twAppend _ _ _ (by decide), twAppend _ _ _ (hno '?' (by decide)),
      List.takeWhile_cons, if_pos (by decide)]
    have hpath : '/' :: ("b/".data
          ++ (d ++ '&' :: (t.takeWhile (fun c => c ≠ '#')).takeWhile (fun c => c ≠ '?')))
        = "/b/".data
          ++ (d ++ '&' :: (t.takeWhile (fun c => c ≠ '#')).takeWhile (fun c => c ≠ '?')) := rfl
    simp only [gmpSelect, hpath]
    rw [if_pos (isPrefixOf_append "/b/".data _)]
    exact finishParams_amp _ _ _ hd hdig
  · have hs : "https://osu.ppy.sh/s/".data ++ (d ++ '&' :: t)
        = httpsHost ++ ("s/".data ++ (d ++ '&' :: t)) := rfl
    rw [get_map_params, hs, urlparse_osu]
    rw [twAppend _ _ _ (by decide), twAppend _ _ _ (hno '#' (by decide)),
      List.takeWhile_cons, if_pos (by decide)]
    rw [twAppend _ _ _ (by decide), twAppend _ _ _ (hno '?' (by decide)),
      List.takeWhile_cons, if_pos (by decide)]
    have hpath : '/' :: ("s/".data
          ++ (d ++ '&' :: (t.takeWhile (fun c => c ≠ '#')).takeWhile (fun c => c ≠ '?')))
        = "/s/".data
          ++ (d ++ '&' :: (t.takeWhile (fun c => c ≠ '#')).takeWhile (fun c => c ≠ '?')) := rfl
    simp only [gmpSelect, hpath]
    rw [if_neg (by simp [List.isPrefixOf, show ('b' == 's') = false from by decide])]
    rw [if_pos (isPrefixOf_append "/s/".data _)]
    exact finishParams_amp _ _ _ hd hdig

/-- Claim C10, witness at the concrete URL `/b/123&junk` (and `/s/123&junk`). -/
theorem c10_ampersand_truncation_witness :
    ("123".data ≠ [] ∧ ∀ c ∈ "123".data, c.isDigit = true)
    ∧ get_map_params ("https://osu.ppy.sh/b/".data ++ ("123".data ++ '&' :: "junk".data))
        = .ok (some ("b".data, "123".data))
    ∧ get_map_params ("https://osu.ppy.sh/s/".data ++ ("123".data ++ '&' :: "junk".data))
        = .ok (some ("s".data, "123".data)) :=
  ⟨⟨by decide, by decide⟩,
   c10_ampersand_truncation "123".data "junk".data (by decide) (by decide)⟩

/-- Claim C7.  For a `/p/beatmap` URL the `b` query parameter is checked
before `s` unconditionally: when `b` is present the result is computed from
`b`'s (first) value with kind `b` (= item), whatever `s` holds; only when
`b` is absent and `s` present is the result computed from `s`'s value with
kind `s` (= collection). -/
theorem c7_b_param_priority (url : Str)
    (hpath : (urlparse url).path = "/p/beatmap".data) :
    (∀ v, qsFirst (parse_qsl (urlparse url).query) "b".data = some v →
        get_map_params url = finishParams (some "b".data) (some v))
    ∧ (qsFirst (parse_qsl (urlparse url).query) "b".data = none →
       ∀ w, qsFirst (parse_qsl (urlparse url).query) "s".data = some w →
        get_map_params url = finishParams (some "s".data) (some w)) := by
  constructor
  · intro v hb
    rw [get_map_params]
    simp only [gmpSelect]
    rw [hpath, if_neg (by decide), if_neg (by decide), if_pos rfl, hb]
  · intro hb w hs
    rw [get_map_params]
    simp only [gmpSelect]
    rw [hpath, if_neg (by decide), if_neg (by decide), if_pos rfl, hb, hs]

/-- The URL witnessing claim C7: `s` is listed first in the query string,
`b` still wins. -/
def c7url : Str := "https://osu.ppy.sh/p/beatmap?s=10&b=22".data

/-- Claim C7, witness: on `/p/beatmap?s=10&b=22` the result is the item
reference `("b", "22")`, not the collection from `s`. -/
theorem c7_b_param_priority_witness :
    (urlparse c7url).path = "/p/beatmap".data
    ∧ qsFirst (parse_qsl (urlparse c7url).query) "b".data = some "22".data
    ∧ get_map_params c7url = finishParams (some "b".data) (some "22".data)
    ∧ get_map_params c7url = .ok (some ("b".data, "22".data)) :=
  ⟨by decide, by decide,
   (c7_b_param_priority c7url (by decide)).1 "22".data (by decide), by decide⟩

/-! Helper lemmas about the recency set and one walk of `thing_loop`. -/

theorem LimitedSet.add_limit (s : LimitedSet) (x : Str) :
    (s.add x).limit = s.limit := by
  rw [LimitedSet.add]; split <;> rfl

theorem take_full {α : Type} :
    ∀ (l : List α) (n : Nat), l.length ≤ n → l.take n = l := by
  intro l
  induction l with
  | nil => intro n _; simp
  | cons c cs ih =>
      intro n h
      cases n with
      | zero => simp at h
      | succ m =>
          rw [List.take_succ_cons, ih m (by simpa using h)]

theorem LimitedSet.mem_add_self (s : LimitedSet) (x : Str) (h : 1 ≤ s.limit) :
    (s.add x).mem x = true := by
  rw [LimitedSet.add]
  split
  · next hx => simp [LimitedSet.mem, hx]
  · cases hl : s.limit with
    | zero => omega
    | succ m => simp [LimitedSet.mem, hl, List.take_succ_cons]

theorem LimitedSet.mem_add_of_mem (s : LimitedSet) (x a : Str)
    (hlen : s.items.length < s.limit) (ha : s.mem a = true) :
    (s.add x).mem a = true := by
  rw [LimitedSet.add]
  split
  · exact ha
  · simp only [LimitedSet.mem, decide_eq_true_eq] at ha ⊢
    rw [take_full _ _ (by simp; omega)]
    exact List.mem_cons_of_mem x ha

theorem LimitedSet.len_add (s : LimitedSet) (x : Str) :
    (s.add x).items.length ≤ s.items.length + 1 := by
  rw [LimitedSet.add]
  split
  · omega
  · simp only [List.length_take, List.length_cons]
    omega

/-- Walking a concatenation: when the walk of the first batch completes, the
walk continues through the second batch from the reached recency set; when
it stops or aborts, the second batch is never inspected. -/
theorem thing_loop_append (env : Env) :
    ∀ (xs ys : List Thing) (seen : LimitedSet),
      thing_loop env (xs ++ ys) seen =
        if (thing_loop env xs seen).2.2 = WalkStatus.completed then
          ((thing_loop env ys (thing_loop env xs seen).1).1,
           (thing_loop env xs seen).2.1
             ++ (thing_loop env ys (thing_loop env xs seen).1).2.1,
           (thing_loop env ys (thing_loop env xs seen).1).2.2)
        else thing_loop env xs seen := by
  intro xs
  induction xs with
  | nil =>
      intro ys seen
      simp [thing_loop]
  | cons t rest ih =>
      intro ys seen
      cases hseen : seen.mem t.id with
      | true => simp [thing_loop, hseen]
      | false =>
          cases hm : get_maps_from_thing t with
          | error e => simp [thing_loop, hseen, hm]
          | ok found =>
              by_cases hf : found = []
              · subst hf
                simp only [List.cons_append]
                simp [thing_loop, hseen, hm, ih]
                rcases h1 : thing_loop env rest (seen.add t.id) with ⟨s1, e1, st1⟩
                by_cases hst : st1 = WalkStatus.completed <;> simp [hst]
              · cases hrep : env.hasReplied t with
                | true => simp [thing_loop, hseen, hm, hf, hrep]
                | false =>
                    cases hrp : reply env.botname env.post t
                        (format_comment env.fmt env.header env.footer env.sep found) with
                    | error e2 => simp [thing_loop, hseen, hm, hf, hrep, hrp]
                    | ok evs =>
                        simp only [List.cons_append]
                        simp [thing_loop, hseen, hm, hf, hrep, hrp, ih]
                        rcases h1 : thing_loop env rest (seen.add t.id) with ⟨s1, e1, st1⟩
                        by_cases hst : st1 = WalkStatus.completed <;> simp [hst]

/-- One walk never changes the capacity of the recency set. -/
theorem tl_limit (env : Env) : ∀ (xs : List Thing) (seen : LimitedSet),
    (thing_loop env xs seen).1.limit = seen.limit := by
  intro xs
  induction xs with
  | nil => intro seen; rfl
  | cons t rest ih =>
      intro seen
      cases hseen : seen.mem t.id with
      | true => simp [thing_loop, hseen]
      | false =>
          cases hm : get_maps_from_thing t with
          | error e => simp [thing_loop, hseen, hm, LimitedSet.add_limit]
          | ok found =>
              by_cases hf : found = []
              · subst hf
                simp [thing_loop, hseen, hm, ih, LimitedSet.add_limit]
              · cases hrep : env.hasReplied t with
                | true =>
                    simp [thing_loop, hseen, hm, hf, hrep, LimitedSet.add_limit]
                | false =>
                    cases hrp : reply env.botname env.post t
                        (format_comment env.fmt env.header env.footer env.sep found) with
                    | error e2 =>
                        simp [thing_loop, hseen, hm, hf, hrep, hrp,
                          LimitedSet.add_limit]
                    | ok evs =>
                        simp [thing_loop, hseen, hm, hf, hrep, hrp, ih,
                          LimitedSet.add_limit]

/-- Invariants of one walk, provided the batch fits in the capacity: the
recency set grows by at most one id per visited item, ids already present
stay present, and when the walk completes every visited item's id has been
recorded. -/
theorem walk_invariant (env : Env) :
    ∀ (xs : List Thing) (seen s : LimitedSet) (e : List Event) (st : WalkStatus),
      thing_loop env xs seen = (s, e, st) →
      seen.items.length + xs.length ≤ seen.limit →
      s.items.length ≤ seen.items.length + xs.length
      ∧ (∀ a, seen.mem a = true → s.mem a = true)
      ∧ (st = WalkStatus.completed → ∀ t ∈ xs, s.mem t.id = true) := by
  intro xs
  induction xs with
  | nil =>
      intro seen s e st h hcap
      rw [show thing_loop env [] seen = (seen, [], WalkStatus.completed) from rfl] at h
      injection h with h1 h2
      injection h2 with h2 h3
      subst h1; subst h3
      exact ⟨by simp, fun a ha => ha, fun _ t ht => absurd ht (List.not_mem_nil t)⟩
  | cons t rest ih =>
      intro seen s e st h hcap
      have hlim1 : 1 ≤ seen.limit := by
        simp only [List.length_cons] at hcap; omega
      have hlt : seen.items.length < seen.limit := by
        simp only [List.length_cons] at hcap; omega
      cases hseen : seen.mem t.id with
      | true =>
          rw [show thing_loop env (t :: rest) seen = (seen, [], WalkStatus.stoppedSeen)
            from by simp [thing_loop, hseen]] at h
          injection h with h1 h2
          injection h2 with h2 h3
          subst h1; subst h3
          refine ⟨by simp only [List.length_cons]; omega, fun a ha => ha, fun hc => ?_⟩
          simp at hc
      | false =>
          have f_lim : (seen.add t.id).limit = seen.limit :=
            LimitedSet.add_limit seen t.id
          have f_len : (seen.add t.id).items.length ≤ seen.items.length + 1 :=
            LimitedSet.len_add seen t.id
          have f_self : (seen.add t.id).mem t.id = true :=
            LimitedSet.mem_add_self seen t.id hlim1
          have f_mem : ∀ a, seen.mem a = true → (seen.add t.id).mem a = true :=
            fun a ha => LimitedSet.mem_add_of_mem seen t.id a hlt ha
          have hcap1 : (seen.add t.id).items.length + rest.length ≤ (seen.add t.id).limit := by
            rw [f_lim]
            simp only [List.length_cons] at hcap
            omega
          cases hm : get_maps_from_thing t with
          | error e0 =>
              rw [show thing_loop env (t :: rest) seen
                  = (seen.add t.id, [], WalkStatus.aborted e0)
                from by simp [thing_loop, hseen, hm]] at h
              injection h with h1 h2
              injection h2 with h2 h3
              subst h1; subst h3
              refine ⟨by simp only [List.length_cons]; omega, f_mem, fun hc => ?_⟩
              simp at hc
          | ok found =>
              by_cases hf : found = []
              · subst hf
                rw [show thing_loop env (t :: rest) seen
                    = ((thing_loop env rest (seen.add t.id)).1,
                       Event.newNoMaps t.id :: (thing_loop env rest (seen.add t.id)).2.1,
                       (thing_loop env rest (seen.add t.id)).2.2)
                  from by simp [thing_loop, hseen, hm]] at h
                rcases h1 : thing_loop env rest (seen.add t.id) with ⟨s1, e1, st1⟩
                rw [h1] at h
                injection h with g1 g2
                injection g2 with g2 g3
                subst g1; subst g3
                obtain ⟨k1, k2, k3⟩ := ih (seen.add t.id) s1 e1 st1 h1 hcap1
                refine ⟨by simp only [List.length_cons]; omega,
                  fun a ha => k2 a (f_mem a ha), fun hc t' ht' => ?_⟩
                rcases List.mem_cons.mp ht' with rfl | hmem
                · exact k2 t'.id f_self
                · exact k3 hc t' hmem
              · cases hrep : env.hasReplied t with
                | true =>
                    rw [show thing_loop env (t :: rest) seen
                        = (seen.add t.id, [Event.alreadyReplied t.id],
                           WalkStatus.stoppedReplied)
                      from by simp [thing_loop, hseen, hm, hf, hrep]] at h
                    injection h with h1 h2
                    injection h2 with h2 h3
                    subst h1; subst h3
                    refine ⟨by simp only [List.length_cons]; omega, f_mem, fun hc => ?_⟩
                    simp at hc
                | false =>
                    cases hrp : reply env.botname env.post t
                        (format_comment env.fmt env.header env.footer env.sep found) with
                    | error e2 =>
                        rw [show thing_loop env (t :: rest) seen
                            = (seen.add t.id, [], WalkStatus.aborted e2)
                          from by simp [thing_loop, hseen, hm, hf, hrep, hrp]] at h
                        injection h with h1 h2
                        injection h2 with h2 h3
                        subst h1; subst h3
                        refine ⟨by simp only [List.length_cons]; omega, f_mem, fun hc => ?_⟩
                        simp at hc
                    | ok evs =>
                        rw [show thing_loop env (t :: rest) seen
                            = ((thing_loop env rest (seen.add t.id)).1,
                               evs ++ (thing_loop env rest (seen.add t.id)).2.1,
                               (thing_loop env rest (seen.add t.id)).2.2)
                          from by simp [thing_loop, hseen, hm, hf, hrep, hrp]] at h
                        rcases h1 : thing_loop env rest (seen.add t.id) with ⟨s1, e1, st1⟩
                        rw [h1] at h
                        injection h with g1 g2
                        injection g2 with g2 g3
                        subst g1; subst g3
                        obtain ⟨k1, k2, k3⟩ := ih (seen.add t.id) s1 e1 st1 h1 hcap1
                        refine ⟨by simp only [List.length_cons]; omega,
                          fun a ha => k2 a (f_mem a ha), fun hc t' ht' => ?_⟩
                        rcases List.mem_cons.mp ht' with rfl | hmem
                        · exact k2 t'.id f_self
                        · exact k3 hc t' hmem

/-- Claim C2.  The walk visits the batch newest-first (list order): after
the newer items `xs` have been processed (each id added to the recency set
as it was visited — under the capacity bound they are all still present at
the end), the first item `c` whose id is already in the set stops the walk
immediately with no further event, so none of the older items `ys` is
processed. -/
theorem c2_stop_on_seen (env : Env) (xs : List Thing) (c : Thing)
    (ys : List Thing) (seen s : LimitedSet) (e : List Event)
    (hwalk : thing_loop env xs seen = (s, e, WalkStatus.completed))
    (hc : s.mem c.id = true) :
    thing_loop env (xs ++ c :: ys) seen = (s, e, WalkStatus.stoppedSeen)
    ∧ (seen.items.length + xs.length ≤ seen.limit →
        ∀ t ∈ xs, s.mem t.id = true) := by
  constructor
  · rw [thing_loop_append env xs (c :: ys) seen, hwalk]
    simp [thing_loop, hc]
  · intro hcap
    exact (walk_invariant env xs seen s e WalkStatus.completed hwalk hcap).2.2 rfl

/-- Environment used by the witnesses of claims C2: nothing was replied to,
posting succeeds, metadata blocks are the ids themselves. -/
def w2Env : Env :=
  ⟨"bot".data, fun _ => false, fun _ i => i, [], [], none, fun _ _ => .ok ()⟩

def w2A : Thing := .comment "a1".data "u".data "x".data
def w2B : Thing := .comment "b1".data "u".data "x".data
def w2C : Thing := .comment "c1".data "u".data "x".data
def w2Seen : LimitedSet := ⟨5, ["c1".data]⟩
def w2S : LimitedSet := ⟨5, ["b1".data, "a1".data, "c1".data]⟩
def w2E : List Event := [.newNoMaps "a1".data, .newNoMaps "b1".data]

/-- Claim C2, witness: for a stream `[A, B, C]` with C already seen, exactly
A and B are processed and inserted and the walk stops at C. -/
theorem c2_stop_on_seen_witness :
    thing_loop w2Env [w2A, w2B] w2Seen = (w2S, w2E, WalkStatus.completed)
    ∧ w2S.mem w2C.id = true
    ∧ (thing_loop w2Env ([w2A, w2B] ++ w2C :: []) w2Seen
        = (w2S, w2E, WalkStatus.stoppedSeen)
       ∧ (w2Seen.items.length + [w2A, w2B].length ≤ w2Seen.limit →
           ∀ t ∈ [w2A, w2B], w2S.mem t.id = true)) :=
  ⟨by decide, by decide,
   c2_stop_on_seen w2Env [w2A, w2B] w2C [] w2Seen w2S w2E (by decide) (by decide)⟩

/-- Claim C3.  A new item `t` (id not yet seen) with extracted references
for which the idempotency check reports an existing reply: its id is
recorded in the recency set, no reply is composed or posted for it (the
only event is the already-replied trace), and the walk stops, leaving the
older items `ys` uninspected. -/
theorem c3_stop_on_already_replied (env : Env) (xs : List Thing) (t : Thing)
    (ys : List Thing) (seen s : LimitedSet) (e : List Event)
    (l : List (Str × Str))
    (hwalk : thing_loop env xs seen = (s, e, WalkStatus.completed))
    (hnew : s.mem t.id = false)
    (hfound : get_maps_from_thing t = .ok l) (hne : l ≠ [])
    (hrep : env.hasReplied t = true)
    (hcap : 1 ≤ seen.limit) :
    thing_loop env (xs ++ t :: ys) seen
      = (s.add t.id, e ++ [Event.alreadyReplied t.id], WalkStatus.stoppedReplied)
    ∧ (s.add t.id).mem t.id = true := by
  have hslim : s.limit = seen.limit := by
    have := tl_limit env xs seen
    rw [hwalk] at this
    exact this
  constructor
  · rw [thing_loop_append env xs (t :: ys) seen, hwalk]
    simp [thing_loop, hnew, hfound, hne, hrep]
  · exact LimitedSet.mem_add_self s t.id (by omega)

/-- Environment used by the witness of claim C3: the idempotency check
reports an existing reply for every item. -/
def w3Env : Env :=
  ⟨"bot".data, fun _ => true, fun _ i => i, [], [], none, fun _ _ => .ok ()⟩

def w3T : Thing :=
  .comment "t1".data "u".data
    "<a href=\"https://osu.ppy.sh/b/1\">https://osu.ppy.sh/b/1</a>".data
def w3Seen : LimitedSet := ⟨5, []⟩

/-- Claim C3, witness: a new item with one extracted reference whose
idempotency check returns true is recorded as seen, gets no reply, and
stops the walk. -/
theorem c3_stop_on_already_replied_witness :
    thing_loop w3Env [] w3Seen = (w3Seen, [], WalkStatus.completed)
    ∧ w3Seen.mem w3T.id = false
    ∧ get_maps_from_thing w3T = .ok [("b".data, "1".data)]
    ∧ w3Env.hasReplied w3T = true
    ∧ (thing_loop w3Env ([] ++ w3T :: []) w3Seen
        = (w3Seen.add w3T.id, [] ++ [Event.alreadyReplied w3T.id],
           WalkStatus.stoppedReplied)
       ∧ (w3Seen.add w3T.id).mem w3T.id = true) :=
  ⟨rfl, by decide, by decide, rfl,
   c3_stop_on_already_replied w3Env [] w3T [] w3Seen w3Seen []
     [("b".data, "1".data)] rfl (by decide) (by decide) (by decide) rfl
     (by decide)⟩

/-! Characterization of the composer's length ceiling (claim C5). -/

/-- Blocks joined by the separator, exactly as the composer's body grows. -/
def joinSep (sep : Str) : List Str → Str
  | [] => []
  | b :: bs => bs.foldl (fun acc x => acc ++ sep ++ x) b

/-- The number of blocks the coded ceiling check admits, for overhead `H`,
block size `B` and separator size `s`: the check counts one separator even
before the first block, so the bound is `(10000 + s - H) / (B + s)` when a
first block fits at all (`H + B + s ≤ 10000`), and `0` otherwise. -/
def fcM (H B s : Nat) : Nat :=
  if H + B + s ≤ 10000 then (10000 + s - H) / (B + s) else 0

theorem foldlSep_len (sep : Str) (B : Nat) :
    ∀ (bs : List Str) (acc : Str), (∀ x ∈ bs, x.length = B) →
      (bs.foldl (fun a x => a ++ sep ++ x) acc).length
        = acc.length + bs.length * (sep.length + B) := by
  intro bs
  induction bs with
  | nil => intro acc _; simp
  | cons x bs' ih =>
      intro acc h
      simp only [List.foldl_cons]
      rw [ih (acc ++ sep ++ x) (fun y hy => h y (List.mem_cons_of_mem x hy)),
        List.length_append, List.length_append,
        h x (List.mem_cons_self x bs'), List.length_cons, Nat.succ_mul]
      omega

theorem joinSep_len (sep : Str) (B : Nat) (b : Str) (bs : List Str)
    (h : ∀ x ∈ b :: bs, x.length = B) :
    (joinSep sep (b :: bs)).length = B + bs.length * (sep.length + B) := by
  simp only [joinSep]
  rw [foldlSep_len sep B bs b (fun y hy => h y (List.mem_cons_of_mem b hy)),
    h b (List.mem_cons_self b bs)]

theorem joinSep_concat (sep : Str) (bs : List Str) (b : Str) (h : bs ≠ []) :
    joinSep sep (bs ++ [b]) = joinSep sep bs ++ sep ++ b := by
  cases bs with
  | nil => cases h rfl
  | cons b0 bs' =>
      simp only [List.cons_append, joinSep]
      rw [List.foldl_append]
      simp

/-- The composer's body loop on constant-size blocks: starting from `j`
already-joined blocks, it appends exactly the next `fcM base B s - j`
blocks, in order. -/
theorem fcBody_const (fmt : Str → Str → Str) (base : Nat) (sep : Str) (B : Nat)
    (hBpos : 0 < B) :
    ∀ (d : List (Str × Str)) (bs : List Str),
      (∀ p ∈ d, (fmt p.1 p.2).length = B) →
      (∀ x ∈ bs, x.length = B) →
      (bs.length ≤ fcM base B sep.length ∨ bs = []) →
      fcBody fmt base sep d (joinSep sep bs)
        = joinSep sep (bs ++ (d.take (fcM base B sep.length - bs.length)).map
            (fun p => fmt p.1 p.2)) := by
  have hpos : 0 < B + sep.length := by omega
  intro d
  induction d with
  | nil => intro bs _ _ _; simp [fcBody]
  | cons p d' ih =>
      intro bs hB hbs hreach
      have hblk : (fmt p.1 p.2).length = B := hB p (List.mem_cons_self _ _)
      by_cases hfit : base + B + sep.length ≤ 10000
      · have hM : fcM base B sep.length
            = (10000 + sep.length - base) / (B + sep.length) := by
          rw [fcM, if_pos hfit]
        have hM1 : 1 ≤ fcM base B sep.length := by
          rw [hM, Nat.le_div_iff_mul_le hpos]
          omega
        cases bs with
        | nil =>
            simp only [joinSep]
            rw [show fcBody fmt base sep (p :: d') []
                = fcBody fmt base sep d' (fmt p.1 p.2) from by
              simp only [fcBody, List.length_nil]
              rw [if_neg (by rw [hblk]; omega)]
              simp]
            rw [show fmt p.1 p.2 = joinSep sep [fmt p.1 p.2] from rfl]
            rw [ih [fmt p.1 p.2] (fun q hq => hB q (List.mem_cons_of_mem p hq))
              (by intro x hx
                  rcases List.mem_singleton.mp hx with rfl
                  exact hblk)
              (Or.inl (by simpa using hM1))]
            obtain ⟨m, hm⟩ : ∃ m, fcM base B sep.length = m + 1 :=
              ⟨fcM base B sep.length - 1, by omega⟩
            rw [hm]
            simp [List.take_succ_cons, joinSep]
        | cons b bs' =>
            have hj : bs'.length + 1 ≤ fcM base B sep.length := by
              rcases hreach with hle | hnil
              · simpa using hle
              · cases hnil
            have hlen : (joinSep sep (b :: bs')).length
                = B + bs'.length * (sep.length + B) :=
              joinSep_len sep B b bs' hbs
            have hkey : (joinSep sep (b :: bs')).length + sep.length
                = (bs'.length + 1) * (B + sep.length) := by
              rw [hlen, Nat.succ_mul, Nat.add_comm sep.length B]
              omega
            have hne : joinSep sep (b :: bs') ≠ [] := by
              intro hcon
              rw [hcon] at hlen
              simp at hlen
              omega
            by_cases hle : bs'.length + 1 + 1 ≤ fcM base B sep.length
            · have hmul : (bs'.length + 1 + 1) * (B + sep.length)
                  ≤ 10000 + sep.length - base := by
                rw [hM] at hle
                exact (Nat.le_div_iff_mul_le hpos).mp hle
              have hguard : ¬(base + (joinSep sep (b :: bs')).length
                  + sep.length + (fmt p.1 p.2).length > 10000) := by
                rw [hblk]
                have h1 : (bs'.length + 1) * (B + sep.length) + (B + sep.length)
                    ≤ 10000 + sep.length - base := by
                  have h2 := hmul
                  rw [show bs'.length + 1 + 1 = Nat.succ (bs'.length + 1) from rfl,
                    Nat.succ_mul] at h2
                  exact h2
                omega
              rw [show fcBody fmt base sep (p :: d') (joinSep sep (b :: bs'))
                  = fcBody fmt base sep d'
                      (joinSep sep (b :: bs') ++ sep ++ fmt p.1 p.2) from by
                simp only [fcBody]
                rw [if_neg hguard, if_neg hne]]
              rw [← joinSep_concat sep (b :: bs') (fmt p.1 p.2) (by simp)]
              rw [ih ((b :: bs') ++ [fmt p.1 p.2])
                (fun q hq => hB q (List.mem_cons_of_mem p hq))
                (by intro x hx
                    rcases List.mem_append.mp hx with hx1 | hx2
                    · exact hbs x hx1
                    · rcases List.mem_singleton.mp hx2 with rfl
                      exact hblk)
                (Or.inl (by
                  simp only [List.length_append, List.length_cons,
                    List.length_singleton, List.length_nil]
                  omega))]
              have hlen2 : ((b :: bs') ++ [fmt p.1 p.2]).length = bs'.length + 2 := by
                simp
              have hlen3 : (b :: bs').length = bs'.length + 1 := by simp
              rw [hlen2, hlen3]
              obtain ⟨k, hk⟩ : ∃ k, fcM base B sep.length - (bs'.length + 1)
                  = k + 1 := ⟨fcM base B sep.length - (bs'.length + 1) - 1, by omega⟩
              have hk2 : fcM base B sep.length - (bs'.length + 2) = k := by omega
              rw [hk, hk2, List.take_succ_cons]
              simp [List.append_assoc]
            · have hjM : bs'.length + 1 = fcM base B sep.length := by omega
              have hguard : base + (joinSep sep (b :: bs')).length
                  + sep.length + (fmt p.1 p.2).length > 10000 := by
                rw [hblk]
                have hdm := Nat.div_add_mod (10000 + sep.length - base)
                  (B + sep.length)
                have hmod := Nat.mod_lt (10000 + sep.length - base) hpos
                rw [← hM, ← hjM, Nat.mul_comm] at hdm
                omega
              rw [show fcBody fmt base sep (p :: d') (joinSep sep (b :: bs'))
                  = joinSep sep (b :: bs') from by
                simp only [fcBody]
                rw [if_pos hguard]]
              have h0 : fcM base B sep.length - (b :: bs').length = 0 := by
                simp only [List.length_cons]
                omega
              rw [h0]
              simp
      · have hM : fcM base B sep.length = 0 := by rw [fcM, if_neg hfit]
        have hbsnil : bs = [] := by
          rcases hreach with hle | hnil
          · rw [hM] at hle
            exact List.length_eq_zero.mp (by omega)
          · exact hnil
        subst hbsnil
        rw [show fcBody fmt base sep (p :: d') (joinSep sep [])
            = joinSep sep [] from by
          simp only [joinSep, fcBody, List.length_nil]
          rw [if_pos (by rw [hblk]; omega)]]
        rw [hM]
        simp

/-- Header used by the counterexample to claim C5's block-count formula. -/
def c5Header : Str := List.replicate 9988 'h'

/-- Metadata formatter used by the counterexample to claim C5. -/
def c5Fmt : Str → Str → Str := fun _ i => i

/-- Claim C5, counterexample.  Overhead `H = 9988 + 0 + 4 = 9992`, blocks of
size `B = 3`, separator of size `sep = 2`, ceiling `L = 10000`.  The claim's
formula `⌊(L - H) / (B + sep)⌋ = ⌊8 / 5⌋ = 1` predicts one block, giving a
comment of length `9992 + 3 = 9995`; the code admits the exact fit of two
blocks and one separator (`9992 + 3 + 2 + 3 = 10000`), producing a comment
of length 10000. -/
theorem c5_ceiling_counterexample :
    (format_comment c5Fmt c5Header [] (some "XY".data)
        [("b".data, "111".data), ("b".data, "222".data)]).length = 10000
    ∧ (10000 - (c5Header.length + ([] : Str).length + line_break.length * 2))
        / (3 + 2) = 1
    ∧ c5Header.length + ([] : Str).length + line_break.length * 2 + 1 * 3 + 0 * 2
        ≠ 10000 := by
  have hhl : c5Header.length = 9988 := List.length_replicate 9988 'h'
  have hlb : line_break.length = 2 := by decide
  have hbase : c5Header.length + ([] : Str).length + line_break.length * 2
      = 9992 := by rw [hhl, hlb]; rfl
  refine ⟨?_, by rw [hbase], by rw [hbase]; omega⟩
  have hstep : fcBody c5Fmt 9992 "XY".data
      (remove_dups [("b".data, "111".data), ("b".data, "222".data)]) []
      = "111XY222".data := by decide
  rw [format_comment, hbase,
    show (some "XY".data).getD line_break = "XY".data from rfl, hstep]
  have h8 : ("111XY222".data).length = 8 := by decide
  simp only [List.length_append, hhl, hlb, h8, List.length_nil]

/-- Claim C5, amended: with per-reference blocks of constant size `B > 0`
and a configured separator of size `sep`, the composer appends blocks in
first-occurrence order and stops at the first block failing the coded
check, which budgets one separator even before the first block; it thus
includes exactly `min n (fcM H B sep)` blocks where `n` is the number of
deduplicated references, `H` the header/footer/line-break overhead, and
`fcM H B sep = ⌊(10000 + sep - H) / (B + sep)⌋` when `H + B + sep ≤ 10000`
and `0` otherwise.  An exact fit at the 10000 ceiling is included, one byte
over is excluded, and the remaining references are silently dropped. -/
theorem c5_ceiling_amended (fmt : Str → Str → Str) (header footer sep : Str)
    (maps : List (Str × Str)) (B : Nat) (hBpos : 0 < B)
    (hB : ∀ p ∈ remove_dups maps, (fmt p.1 p.2).length = B) :
    format_comment fmt header footer (some sep) maps
      = header ++ line_break
        ++ joinSep sep (((remove_dups maps).take
              (fcM (header.length + footer.length + line_break.length * 2)
                B sep.length)).map (fun p => fmt p.1 p.2))
        ++ line_break ++ footer := by
  rw [format_comment, show (some sep).getD line_break = sep from rfl]
  rw [show ([] : Str) = joinSep sep [] from rfl]
  rw [fcBody_const fmt
    (header.length + footer.length + line_break.length * 2) sep B hBpos
    (remove_dups maps) [] hB (by intro x hx; cases hx) (Or.inr rfl)]
  simp

/-- Claim C5, witness for the amended theorem: header `H`, footer `F`,
separator `S`, two blocks of size 2 — everything fits, both blocks appear
joined by the separator. -/
theorem c5_ceiling_amended_witness :
    (0 < 2 ∧ ∀ p ∈ remove_dups [("b".data, "11".data), ("s".data, "22".data)],
        ((fun (_ i : Str) => i) p.1 p.2).length = 2)
    ∧ format_comment (fun (_ i : Str) => i) "H".data "F".data (some "S".data)
        [("b".data, "11".data), ("s".data, "22".data)]
      = "H".data ++ line_break
        ++ joinSep "S".data (((remove_dups
              [("b".data, "11".data), ("s".data, "22".data)]).take
              (fcM ("H".data.length + "F".data.length + line_break.length * 2)
                2 "S".data.length)).map
            (fun p => (fun (_ i : Str) => i) p.1 p.2))
        ++ line_break ++ "F".data :=
  ⟨⟨by decide, by decide⟩,
   c5_ceiling_amended (fun (_ i : Str) => i) "H".data "F".data "S".data
     [("b".data, "11".data), ("s".data, "22".data)] 2 (by decide) (by decide)⟩

end BeatmapBot
